import Mathlib

set_option linter.unusedVariables false

/-! Shallow embedding of the apictl repository (icub3d/apictl).

Rust `String`s are modelled as lists of characters (`Str`), `HashMap`s as
association lists, and fallible or panicking code as `Option`-valued
functions (`none` models a panic or an unwrap failure).  Each definition
is translated from the named Rust item of the repository's source.
-/

abbrev Str := List Char

/-- Association-list lookup, modelling `HashMap::get` (hashing is
irrelevant to the observable lookup behaviour). -/
def lookupA {α β : Type} [DecidableEq α] : List (α × β) → α → Option β
  | [], _ => none
  | (k, v) :: rest, a => if k = a then some v else lookupA rest a

/-! ## JSON values

`Config::find_response_data` (src/config.rs) parses a response body with
the external `serde_json` collaborator and walks the resulting value.
`Json` models `serde_json::Value` for the fragment the repository
exercises: objects, arrays, strings without escape sequences, integers,
booleans and null.  Floating-point numbers are outside the model. -/

inductive Json : Type
  | str (s : Str)
  | num (n : Int)
  | bool (b : Bool)
  | null
  | arr (elems : List Json)
  | obj (fields : List (Str × Json))

/-- String escaping used by the compact JSON rendering (quote and
backslash; other characters are emitted verbatim in the model). -/
def escapeJson : Str → Str
  | [] => []
  | '"' :: rest => '\\' :: '"' :: escapeJson rest
  | '\\' :: rest => '\\' :: '\\' :: escapeJson rest
  | c :: rest => c :: escapeJson rest

/-- Decimal rendering of an integer. -/
def intChars (n : Int) : Str :=
  if n < 0 then '-' :: Nat.toDigits 10 n.natAbs else Nat.toDigits 10 n.natAbs

mutual

/-- `serde_json::Value::to_string()`: the compact JSON rendering that
`Config::find_response_data` (src/config.rs:158-163) applies to the value
found at a body path, before stripping enclosing quotes. -/
def Json.render : Json → Str
  | .str s => '"' :: (escapeJson s ++ ['"'])
  | .num n => intChars n
  | .bool true => "true".toList
  | .bool false => "false".toList
  | .null => "null".toList
  | .arr elems => '[' :: (Json.renderElems elems ++ [']'])
  | .obj fields => '{' :: (Json.renderFields fields ++ ['}'])

def Json.renderElems : List Json → Str
  | [] => []
  | [v] => v.render
  | v :: rest => v.render ++ ',' :: Json.renderElems rest

def Json.renderFields : List (Str × Json) → Str
  | [] => []
  | [(k, v)] => '"' :: (escapeJson k ++ '"' :: ':' :: v.render)
  | (k, v) :: rest =>
      ('"' :: (escapeJson k ++ '"' :: ':' :: v.render)) ++ ',' :: Json.renderFields rest

end

/-- `token.parse::<usize>()` in `Config::find_response_data`
(src/config.rs:149): a token is numeric when it is a non-empty string of
decimal digits. -/
def tokenToNat? (t : Str) : Option Nat :=
  if t ≠ [] ∧ t.all Char.isDigit then
    some (t.foldl (fun acc c => acc * 10 + (c.toNat - 48)) 0)
  else none

/-- One step of `cur.get(t)` with `t : Box<dyn Index>`
(src/config.rs:149-156): a numeric token indexes arrays (and fails on
anything else); a non-numeric token looks up an object field (and fails
on anything else). -/
def Json.getStep : Json → Str → Option Json
  | .arr elems, tok =>
      match tokenToNat? tok with
      | some i => elems.get? i
      | none => none
  | .obj fields, tok =>
      match tokenToNat? tok with
      | some _ => none
      | none => lookupA fields tok
  | _, _ => none

/-- The token-walking loop of `Config::find_response_data`
(src/config.rs:148-157): each missing step aborts with `None`. -/
def walkPath : Json → List Str → Option Json
  | cur, [] => some cur
  | cur, t :: ts =>
      match cur.getStep t with
      | some v => walkPath v ts
      | none => none

/-- `name.split('.')` (src/config.rs:142): split on every dot; always
returns at least one (possibly empty) token. -/
def splitDot : Str → List Str
  | [] => [[]]
  | c :: rest =>
      if c = '.' then [] :: splitDot rest
      else
        match splitDot rest with
        | t :: ts => (c :: t) :: ts
        | [] => [[c]]

/-- `.trim_start_matches('"').trim_end_matches('"')`
(src/config.rs:160-161): strip every leading and trailing quote
character. -/
def stripQuotes (s : Str) : Str :=
  ((s.dropWhile (· = '"')).reverse.dropWhile (· = '"')).reverse

/-! ## JSON parsing (external `serde_json::from_str` collaborator)

A fuel-indexed recursive-descent parser for the JSON fragment of the
model.  Only its executable behaviour on concrete bodies matters: the
theorems about `find_response_data` take the parse result as a
hypothesis. -/

/-- JSON whitespace. -/
def isJsonWs (c : Char) : Bool :=
  c = ' ' || c = '\t' || c = '\n' || c = '\r'

def skipWs (s : Str) : Str := s.dropWhile isJsonWs

/-- Body of a JSON string up to the closing quote (escape sequences are
outside the model and make the parse fail). -/
def parseStringRest : Str → Option (Str × Str)
  | [] => none
  | '"' :: rest => some ([], rest)
  | '\\' :: _ => none
  | c :: rest =>
      match parseStringRest rest with
      | some (s, r) => some (c :: s, r)
      | none => none

/-- A non-empty run of decimal digits, as a number. -/
def parseDigits (s : Str) : Option (Nat × Str) :=
  let ds := s.takeWhile Char.isDigit
  if ds = [] then none
  else some (ds.foldl (fun acc c => acc * 10 + (c.toNat - 48)) 0, s.dropWhile Char.isDigit)

def parseNum (s : Str) : Option (Json × Str) :=
  match s with
  | '-' :: rest =>
      match parseDigits rest with
      | some (n, r) => some (.num (-(n : Int)), r)
      | none => none
  | _ =>
      match parseDigits s with
      | some (n, r) => some (.num (n : Int), r)
      | none => none

mutual

def parseValue : Nat → Str → Option (Json × Str)
  | 0, _ => none
  | fuel + 1, s =>
      match skipWs s with
      | '"' :: rest =>
          match parseStringRest rest with
          | some (str, r) => some (.str str, r)
          | none => none
      | 't' :: 'r' :: 'u' :: 'e' :: rest => some (.bool true, rest)
      | 'f' :: 'a' :: 'l' :: 's' :: 'e' :: rest => some (.bool false, rest)
      | 'n' :: 'u' :: 'l' :: 'l' :: rest => some (.null, rest)
      | '{' :: rest =>
          (match skipWs rest with
           | '}' :: r => some (.obj [], r)
           | _ => match parseFields fuel (skipWs rest) with
                  | some (fs, r) => some (.obj fs, r)
                  | none => none)
      | '[' :: rest =>
          (match skipWs rest with
           | ']' :: r => some (.arr [], r)
           | _ => match parseElems fuel (skipWs rest) with
                  | some (es, r) => some (.arr es, r)
                  | none => none)
      | s' => parseNum s'

def parseFields : Nat → Str → Option (List (Str × Json) × Str)
  | 0, _ => none
  | fuel + 1, s =>
      match skipWs s with
      | '"' :: rest =>
          match parseStringRest rest with
          | some (key, r1) =>
              (match skipWs r1 with
               | ':' :: r2 =>
                   (match parseValue fuel r2 with
                    | some (v, r3) =>
                        (match skipWs r3 with
                         | ',' :: r4 =>
                             (match parseFields fuel r4 with
                              | some (fs, r5) => some ((key, v) :: fs, r5)
                              | none => none)
                         | '}' :: r4 => some ([(key, v)], r4)
                         | _ => none)
                    | none => none)
               | _ => none)
          | none => none
      | _ => none

def parseElems : Nat → Str → Option (List Json × Str)
  | 0, _ => none
  | fuel + 1, s =>
      match parseValue fuel s with
      | some (v, r1) =>
          (match skipWs r1 with
           | ',' :: r2 =>
               (match parseElems fuel r2 with
                | some (es, r3) => some (v :: es, r3)
                | none => none)
           | ']' :: r2 => some ([v], r2)
           | _ => none)
      | none => none

end

/-- `serde_json::from_str::<serde_json::Value>` on a response body:
parse one value and require only trailing whitespace after it. -/
def parseJson (s : Str) : Option Json :=
  match parseValue (s.length + 1) s with
  | some (v, rest) => if skipWs rest = [] then some v else none
  | none => none

/-! ## Response and the response-data lookup -/

/-- `Response` (src/response.rs:46-52). -/
structure Response : Type where
  status_code : Nat
  version : Str
  headers : List (Str × Str)
  body : Str

/-- `Config::find_response_data` (src/config.rs:139-164): split the
placeholder remainder on dots, require a response name plus a non-empty
body path, look the response up, parse its body as JSON, walk the path
tokens, and render the reached value with enclosing quotes stripped.
`Applicator::find_response_data` (src/applicator.rs:55-64) splits off
the response name and delegates the identical path walk to
`Response::find_path_in_body`. -/
def find_response_data (responses : List (Str × Response)) (name : Str) : Option Str :=
  match splitDot name with
  | [] => none
  | t0 :: rest =>
      if rest = [] then none
      else
        match lookupA responses t0 with
        | none => none
        | some resp =>
            match parseJson resp.body with
            | none => none
            | some v =>
                match walkPath v rest with
                | none => none
                | some leaf => some (stripQuotes (Json.render leaf))

/-! ## The placeholder pattern and the resolver

The `VARIABLE` regex (src/applicator.rs:8-10, src/lib.rs:16-18) is
`\$\{\s*([-.\w]+)\s*\}`.  `matchVar` decides whether it matches at the
head of the input and returns the captured identifier together with the
input following the match; since the two character classes are disjoint
and the quantifiers greedy, this deterministic scan is exactly the
regex's leftmost-match behaviour.  Word characters are modelled in their
ASCII range. -/

/-- `\s` of the `VARIABLE` pattern. -/
def isSpaceChar (c : Char) : Bool :=
  c = ' ' || c = '\t' || c = '\n' || c = '\r' || c = '\x0b' || c = '\x0c'

/-- The class `[-.\w]` of the `VARIABLE` pattern. -/
def isNameChar (c : Char) : Bool :=
  c.isAlphanum || c = '_' || c = '-' || c = '.'

/-- One anchored attempt of the `VARIABLE` regex: `${`, optional
whitespace, a non-empty run of name characters (the capture), optional
whitespace, `}`. -/
def matchVar : Str → Option (Str × Str)
  | c1 :: c2 :: rest =>
      if c1 = '$' ∧ c2 = '{' then
        let r1 := rest.dropWhile isSpaceChar
        let name := r1.takeWhile isNameChar
        let r2 := (r1.dropWhile isNameChar).dropWhile isSpaceChar
        if name = [] then none
        else
          match r2 with
          | c3 :: r3 => if c3 = '}' then some (name, r3) else none
          | [] => none
      else none
  | _ => none

/-- "response." -- the prefix tested by `name.starts_with("response.")`
(src/applicator.rs:35, src/config.rs:119). -/
def responseTag : Str := "response.".toList

/-- The per-placeholder replacement of `Applicator::apply`
(src/applicator.rs:35-44) and `Config::apply` (src/config.rs:119-128):
identifiers starting with `response.` are resolved against the response
store (dropping the 9-character prefix), all others against the
context; a failed lookup yields the empty string. -/
def resolveName (responses : List (Str × Response)) (cxt : List (Str × Str))
    (name : Str) : Str :=
  if responseTag.isPrefixOf name then
    match find_response_data responses (name.drop 9) with
    | some v => v
    | none => []
  else
    match lookupA cxt name with
    | some v => v
    | none => []

theorem lengthDropWhileLe {α : Type} (p : α → Bool) (l : List α) :
    (l.dropWhile p).length ≤ l.length := by
  induction l with
  | nil => simp [List.dropWhile]
  | cons a l ih =>
    simp only [List.dropWhile]
    split
    · exact Nat.le_succ_of_le ih
    · simp

theorem matchVar_length {l : Str} {p : Str × Str} (h : matchVar l = some p) :
    p.2.length < l.length := by
  match l with
  | [] => simp [matchVar] at h
  | [c] => simp [matchVar] at h
  | c1 :: c2 :: rest =>
    simp only [matchVar] at h
    split at h
    · split at h
      · exact absurd h (by simp)
      · split at h
        · split at h
          · rename_i r2 c3 r3 hcond hc3
            have h2 : (rest.dropWhile isSpaceChar).length ≤ rest.length :=
              lengthDropWhileLe _ _
            have h4 : ((rest.dropWhile isSpaceChar).dropWhile isNameChar).length ≤
                (rest.dropWhile isSpaceChar).length := lengthDropWhileLe _ _
            have h5 : (((rest.dropWhile isSpaceChar).dropWhile isNameChar).dropWhile
                isSpaceChar).length ≤
                ((rest.dropWhile isSpaceChar).dropWhile isNameChar).length :=
              lengthDropWhileLe _ _
            have h6 : (c3 :: r3).length =
                (((rest.dropWhile isSpaceChar).dropWhile isNameChar).dropWhile
                  isSpaceChar).length := by
              rw [hcond]
            have h7 : p.2 = r3 := by
              cases h
              rfl
            rw [h7]
            simp only [List.length_cons] at h6 ⊢
            omega
          · exact absurd h (by simp)
        · exact absurd h (by simp)
    · exact absurd h (by simp)

/-- The scan-and-substitute loop of `Applicator::apply`
(src/applicator.rs:27-53) and `Config::apply` (src/config.rs:111-137):
each regex match is replaced by its resolved value, all remaining text
is copied through, and the function is total (missing identifiers never
raise an error). -/
def applyChars (responses : List (Str × Response)) (cxt : List (Str × Str)) :
    Str → Str
  | [] => []
  | c :: cs =>
      match h : matchVar (c :: cs) with
      | some (name, rest) =>
          resolveName responses cxt name ++ applyChars responses cxt rest
      | none => c :: applyChars responses cxt cs
termination_by s => s.length
decreasing_by
  · exact matchVar_length h
  · simp


/-! ## Configuration, request templates and rendering -/

/-- `RawBody` (src/request.rs:191-196). -/
inductive RawBody : Type
  | file (path : Str)
  | text (data : Str)

/-- `MultiPartField` (src/request.rs:198-203). -/
inductive MultiPartField : Type
  | file (path : Str)
  | text (data : Str)

/-- `Body` (src/request.rs:175-189). -/
inductive Body : Type
  | none
  | form (data : List (Str × Str))
  | raw (from_ : RawBody)
  | multiPart (data : List (Str × MultiPartField))

/-- `Request` (src/request.rs:53-66). -/
structure Request : Type where
  description : Str
  tags : List Str
  url : Str
  method : Str
  headers : List (Str × Str)
  query_parameters : List (Str × Str)
  body : Body

/-- `Config` (src/config.rs:27-35); `requests` is omitted because no
embedded operation reads it. -/
structure Config : Type where
  contexts : List (Str × List (Str × Str))
  responses : List (Str × Response)

/-- `Config::apply` (src/config.rs:111-137): resolve a template string
against a context and the configuration's response store. -/
def Config.apply (cfg : Config) (cxt : List (Str × Str)) (s : Str) : Str :=
  applyChars cfg.responses cxt s

/-- The body-variant dispatch of `Request::apply` (src/request.rs:85-112):
form values field-by-field, the raw file path, the raw inline text, and
each multipart text field or file path. -/
def Body.applyBody (cfg : Config) (cxt : List (Str × Str)) : Body → Body
  | .none => .none
  | .form data => .form (data.map (fun kv => (kv.1, cfg.apply cxt kv.2)))
  | .raw (.file path) => .raw (.file (cfg.apply cxt path))
  | .raw (.text data) => .raw (.text (cfg.apply cxt data))
  | .multiPart data =>
      .multiPart (data.map (fun kv =>
        (kv.1,
         match kv.2 with
         | .text d => MultiPartField.text (cfg.apply cxt d)
         | .file p => MultiPartField.file (cfg.apply cxt p))))

/-- `Request::apply` (src/request.rs:76-113): in-place rendering,
modelled as a functional update.  The code rewrites `url`, `method`,
every header value, every query-parameter value and the body leaves; it
does not touch `description` or `tags`. -/
def Request.applyReq (cfg : Config) (cxt : List (Str × Str)) (r : Request) : Request :=
  { r with
    url := cfg.apply cxt r.url
    method := cfg.apply cxt r.method
    headers := r.headers.map (fun kv => (kv.1, cfg.apply cxt kv.2))
    query_parameters := r.query_parameters.map (fun kv => (kv.1, cfg.apply cxt kv.2))
    body := r.body.applyBody cfg cxt }

/-! ## Result trees -/

/-- `TestState` (src/test.rs:52-67). -/
inductive TestState : Type
  | notRun
  | running
  | passed
  | failed (reason : Str)
deriving DecidableEq

/-- `TestResults` (src/test.rs:80-85): name, state, children. -/
inductive TestResults : Type
  | mk (name : Str) (state : TestState) (children : List TestResults)

def TestResults.name : TestResults → Str
  | .mk n _ _ => n

def TestResults.state : TestResults → TestState
  | .mk _ st _ => st

def TestResults.children : TestResults → List TestResults
  | .mk _ _ ch => ch

mutual

/-- `TestResults::update` (src/test.rs:124-135): follow the name path;
a path of length one matching this node sets its state; a longer path
matching this node looks the second name up among the immediate
children with `.find(...).unwrap()` — `none` models the panic of the
`unwrap` when no child matches. -/
def TestResults.update : TestResults → List Str → TestState → Option TestResults
  | .mk n st ch, [], _ => some (.mk n st ch)
  | .mk n st ch, [n0], s =>
      if n = n0 then some (.mk n s ch) else some (.mk n st ch)
  | .mk n st ch, n0 :: n1 :: rest, s =>
      if n = n0 then
        match TestResults.updateChild ch n1 rest s with
        | some ch' => some (.mk n st ch')
        | none => none
      else some (.mk n st ch)

/-- The `children.iter_mut().find(|c| c.name == names[1]).unwrap()`
followed by `child.update(&names[1..], state)` of `TestResults::update`:
the first child named `n1` is updated in place; no such child is the
`unwrap` panic. -/
def TestResults.updateChild :
    List TestResults → Str → List Str → TestState → Option (List TestResults)
  | [], _, _, _ => none
  | c :: cs, n1, rest, s =>
      if c.name = n1 then
        match c.update (n1 :: rest) s with
        | some c' => some (c' :: cs)
        | none => none
      else
        match TestResults.updateChild cs n1 rest s with
        | some cs' => some (c :: cs')
        | none => none

end

mutual

/-- `TestResults::complete` (src/test.rs:137-148): set this node
`Passed`, then scan the children in order; on the first child already
`Failed` set this node `Failed("dependent test failed")` and stop;
a not-yet-failed child with children is completed recursively (note
that its state is read before the recursive call). -/
def TestResults.complete : TestResults → TestResults
  | .mk n _ ch =>
      match TestResults.completeChildren ch with
      | (ch', true) => .mk n (.failed "dependent test failed".toList) ch'
      | (ch', false) => .mk n .passed ch'

def TestResults.completeChildren : List TestResults → List TestResults × Bool
  | [] => ([], false)
  | c :: cs =>
      match c.state with
      | .failed e => (c :: cs, true)
      | _ =>
          let c' := if c.children.isEmpty then c else c.complete
          match TestResults.completeChildren cs with
          | (cs', b) => (c' :: cs', b)

end

/-- `TestResults::new` (src/test.rs:88-110): the skeleton tree built
before execution — one child per step, one grandchild per assertion,
every state `NotRun`.  A step is given here by its name and the display
names of its asserts paired with the assert's outcome (`none` for `Ok`,
`some e` for `Err e`), which abstracts the HTTP call and
`Assert::execute`. -/
def skeletonTree (testName : Str) (steps : List (Str × List (Str × Option Str))) :
    TestResults :=
  .mk testName .notRun
    (steps.map (fun st =>
      .mk st.1 .notRun (st.2.map (fun a => .mk a.1 .notRun []))))

/-- The result-tree updates of one step of `Test::execute`
(src/test.rs:192-220): each assert leaf is set `Passed` or
`Failed(reason)` from its outcome, then the step node itself is set
`Passed` unconditionally. -/
def runStep (testName : Str) (res : TestResults)
    (step : Str × List (Str × Option Str)) : Option TestResults := do
  let res ← step.2.foldlM
    (fun r a =>
      TestResults.update r [testName, step.1, a.1]
        (match a.2 with
         | Option.none => TestState.passed
         | some e => TestState.failed e))
    res
  TestResults.update res [testName, step.1] .passed

/-- The result-tree computation of `Test::execute` (src/test.rs:181-224)
for a test whose every step's request is found: build the skeleton, run
the steps in order, and finally set the root state `Passed` directly
(`results.state = TestState::Passed`, src/test.rs:221).
`TestResults::complete` is not called. -/
def executeTree (testName : Str) (steps : List (Str × List (Str × Option Str))) :
    Option TestResults := do
  let res ← steps.foldlM (runStep testName) (skeletonTree testName steps)
  match res with
  | .mk n _ ch => pure (TestResults.mk n .passed ch)

/-! ## The `Results` tree of src/results.rs -/

/-- `State` (src/results.rs:19-34). -/
inductive RState : Type
  | notRun
  | running
  | passed
  | failed (reason : Str)
deriving DecidableEq

/-- `Results` (src/results.rs:47-53): name, state, duration, children.
Durations are nanosecond counts. -/
inductive Results : Type
  | mk (name : Str) (state : RState) (duration : Nat) (children : List Results)

def Results.name : Results → Str
  | .mk n _ _ _ => n

mutual

/-- `Results::update` (src/results.rs:112-124): identical path logic to
`TestResults::update`, but a matched node of a length-one path also
records `start.elapsed()` (the `elapsed` argument); the missing-child
`unwrap` panic is `none`. -/
def Results.update : Results → List Str → RState → Nat → Option Results
  | .mk n st d ch, [], _, _ => some (.mk n st d ch)
  | .mk n st d ch, [n0], s, elapsed =>
      if n = n0 then some (.mk n s elapsed ch) else some (.mk n st d ch)
  | .mk n st d ch, n0 :: n1 :: rest, s, elapsed =>
      if n = n0 then
        match Results.updateChild ch n1 rest s elapsed with
        | some ch' => some (.mk n st d ch')
        | none => none
      else some (.mk n st d ch)

def Results.updateChild :
    List Results → Str → List Str → RState → Nat → Option (List Results)
  | [], _, _, _, _ => none
  | c :: cs, n1, rest, s, elapsed =>
      if c.name = n1 then
        match c.update (n1 :: rest) s elapsed with
        | some c' => some (c' :: cs)
        | none => none
      else
        match Results.updateChild cs n1 rest s elapsed with
        | some cs' => some (c :: cs')
        | none => none

end

/-! ## Benchmark statistics (src/bin/apictl.rs, `Command::Benchmark`) -/

/-- The per-call recording of the worker loop
(src/bin/apictl.rs:280-293): an `Ok` response pushes its duration, an
`Err` is logged and pushes nothing. -/
def recordedDurations (outcomes : List (Option Nat)) : List Nat :=
  outcomes.filterMap id

/-- The mean computation (src/bin/apictl.rs:316-317):
`durations.sum() / (number * benchmarks.len()) as u32` — `Duration`
division truncates and panics on a zero divisor (`none`). -/
def benchMean (durations : List Nat) (number benchmarksLen : Nat) : Option Nat :=
  if number * benchmarksLen = 0 then none
  else some (durations.sum / (number * benchmarksLen))

/-- The percentile cut points printed by the latency distribution
(src/bin/apictl.rs:342). -/
def percentileCuts : List Nat := [99, 95, 90, 75, 50, 25, 10]

/-- The latency-distribution indexing (src/bin/apictl.rs:340-345): sort
the recorded durations and report `durations[durations.len() * p / 100]`
for each percentile; `none` models the out-of-bounds panic of the
indexing. -/
def reportedPercentile (durations : List Nat) (p : Nat) : Option Nat :=
  let s := durations.mergeSort (· ≤ ·)
  s.get? (s.length * p / 100)

/-- The bin-filling loop of `histogram` (src/bin/apictl.rs:376-383):
`bin = (value - min) / bin_size`, capped at `num_bins - 1`. -/
def histogramBins (values : List Nat) (mn binSize numBins : Nat) : List Nat :=
  values.foldl
    (fun bins v =>
      let bin := (v - mn) / binSize
      let bin := if bin ≥ numBins then numBins - 1 else bin
      bins.set bin (bins.get! bin + 1))
    (List.replicate numBins 0)

/-- `histogram` (src/bin/apictl.rs:371-395): `none` models a panic —
the `min()/max().unwrap()` on an empty input, the `(max - min) /
num_bins` division for `num_bins = 0`, and the `(value - min) /
bin_size` division by zero when the bucket width is zero (which the
loop hits because the input is non-empty there). -/
def histogram (values : List Nat) (numBins : Nat) :
    Option (List (Nat × Nat) × List Nat) :=
  match values.min?, values.max? with
  | some mn, some mx =>
      if numBins = 0 then none
      else
        let binSize := (mx - mn) / numBins
        if binSize = 0 then none
        else
          some
            ((List.range numBins).map
               (fun i => (mn + i * binSize, mn + i * binSize + binSize)),
             histogramBins values mn binSize numBins)
  | _, _ => none

/-! ## The benchmark iteration counter (src/bin/apictl.rs:264-298)

The worker loop claims iterations from a shared `AtomicUsize` with
`fetch_add(1, SeqCst)` and exits once the claimed value reaches
`number`.  `fetch_add` on the shared counter is atomic, so a concurrent
run is modelled by its linearisation: the schedule, a list of worker
identifiers in the order in which the `fetch_add` calls took effect.
The k-th call in the schedule returns k. -/

/-- The counter values claimed by worker `w` under a schedule: the
positions of `w` in the schedule. -/
def claimedBy {W : Nat} (schedule : List (Fin W)) (w : Fin W) : List Nat :=
  (List.range schedule.length).filter (fun k => decide (schedule[k]? = some w))

/-- The iterations worker `w` actually executes: claimed values below
`number` (a claim `i >= number` makes the worker return instead,
src/bin/apictl.rs:274-277). -/
def executedBy {W : Nat} (number : Nat) (schedule : List (Fin W)) (w : Fin W) :
    List Nat :=
  (claimedBy schedule w).filter (fun v => decide (v < number))

/-- A finished benchmark run: every worker has exited, i.e. its last
`fetch_add` returned a value `>= number`. -/
def finishedRun {W : Nat} (number : Nat) (schedule : List (Fin W)) : Prop :=
  ∀ w : Fin W, ∃ v ∈ claimedBy schedule w, number ≤ v

/-! ## Theorems -/

theorem updateChildT_none (n1 : Str) (rest : List Str) (s : TestState) :
    ∀ ch : List TestResults, (∀ c ∈ ch, c.name ≠ n1) →
    TestResults.updateChild ch n1 rest s = none := by
  intro ch
  induction ch with
  | nil => intro _; rfl
  | cons c cs ih =>
    intro h
    have hc : c.name ≠ n1 := h c (by simp)
    rw [TestResults.updateChild]
    rw [if_neg hc, ih (fun x hx => h x (by simp [hx]))]

theorem updateChildR_none (n1 : Str) (rest : List Str) (s : RState) (e : Nat) :
    ∀ ch : List Results, (∀ c ∈ ch, c.name ≠ n1) →
    Results.updateChild ch n1 rest s e = none := by
  intro ch
  induction ch with
  | nil => intro _; rfl
  | cons c cs ih =>
    intro h
    have hc : c.name ≠ n1 := h c (by simp)
    rw [Results.updateChild]
    rw [if_neg hc, ih (fun x hx => h x (by simp [hx]))]

/-- C9: calling `update` with a path of length at least two whose first
element is the node's own name and whose second element matches none of
the node's immediate children panics (the `find(...).unwrap()` of
src/test.rs:128-132 and src/results.rs:117-121 unwraps a `None`),
modelled as the `none` result, for both `TestResults::update` and
`Results::update`. -/
theorem update_missing_child_panics
    (n n1 : Str) (rest : List Str) :
    (∀ (st : TestState) (ch : List TestResults) (s : TestState),
       (∀ c ∈ ch, c.name ≠ n1) →
       TestResults.update (.mk n st ch) (n :: n1 :: rest) s = none) ∧
    (∀ (st : RState) (d : Nat) (ch : List Results) (s : RState) (elapsed : Nat),
       (∀ c ∈ ch, c.name ≠ n1) →
       Results.update (.mk n st d ch) (n :: n1 :: rest) s elapsed = none) := by
  constructor
  · intro st ch s h
    rw [TestResults.update, if_pos rfl, updateChildT_none n1 rest s ch h]
  · intro st d ch s elapsed h
    rw [Results.update, if_pos rfl, updateChildR_none n1 rest s elapsed ch h]

/-- Witness for C9 at a concrete tree: a node named `t` with a single
child named `a`, updated along the path `[t, x]`. -/
theorem update_missing_child_panics_witness :
    TestResults.update
      (.mk "t".toList .notRun [.mk "a".toList .notRun []])
      ["t".toList, "x".toList] .passed = none := by
  have h := (update_missing_child_panics "t".toList "x".toList []).1
    .notRun [TestResults.mk "a".toList .notRun []] .passed
  apply h
  intro c hc
  simp at hc
  rw [hc]
  simp [TestResults.name]

/-- C10 (part of the claim): on a non-empty duration list whose minimum
equals its maximum, the bucket width `(max - min) / num_bins` is zero
and the bin-filling loop's `(value - min) / bin_size` divides by zero, a
panic (`histogram ... = none`); and `histogram` succeeds whenever the
bucket width is non-zero (which requires `max > min`). -/
theorem histogram_equal_min_max_panics (values : List Nat) (m : Nat) :
    (values ≠ [] → values.min? = some m → values.max? = some m →
       histogram values 10 = none) ∧
    (∀ mn mx : Nat, values.min? = some mn → values.max? = some mx →
       (mx - mn) / 10 ≠ 0 → ∃ r, histogram values 10 = some r) := by
  constructor
  · intro hne hmin hmax
    rw [histogram, hmin, hmax]
    simp
  · intro mn mx hmin hmax hbin
    rw [histogram, hmin, hmax]
    simp [hbin]

/-- Witness for C10 on the list `[5, 5]`. -/
theorem histogram_equal_min_max_panics_witness :
    histogram [5, 5] 10 = none := by
  exact (histogram_equal_min_max_panics [5, 5] 5).1 (by decide) (by decide) (by decide)

/-- C3, counterexample: with `number = 2` benchmark iterations of one
request and a single recorded (successful) duration of 100ns — the
other call failed and was excluded — the reported mean is
`100 / 2 = 50`, not the recorded-sample mean `100 / 1 = 100` the claim
prescribes. -/
theorem benchMean_not_recorded_count :
    benchMean (recordedDurations [some 100, none]) 2 1 ≠
      some ((recordedDurations [some 100, none]).sum /
        (recordedDurations [some 100, none]).length) := by
  decide

/-- C3 as amended: a failed call contributes nothing to the recorded
durations, and the reported mean is the sum of the recorded durations
divided by `number * benchmarks.len()` — the planned total number of
calls — which coincides with the recorded-sample mean exactly when
every call succeeded (recorded count = planned total). -/
theorem benchMean_divides_by_planned_total
    (outcomes : List (Option Nat)) (number benchLen : Nat)
    (h : 0 < number * benchLen) :
    benchMean (recordedDurations outcomes) number benchLen =
      some ((recordedDurations outcomes).sum / (number * benchLen)) ∧
    ((recordedDurations outcomes).length = number * benchLen →
      benchMean (recordedDurations outcomes) number benchLen =
        some ((recordedDurations outcomes).sum /
          (recordedDurations outcomes).length)) := by
  constructor
  · rw [benchMean, if_neg (Nat.pos_iff_ne_zero.mp h)]
  · intro hlen
    rw [benchMean, if_neg (Nat.pos_iff_ne_zero.mp h), hlen]

/-- Witness for C3's amended statement: two successful calls. -/
theorem benchMean_divides_by_planned_total_witness :
    benchMean (recordedDurations [some 100, some 200]) 2 1 = some 150 := by
  have h := (benchMean_divides_by_planned_total [some 100, some 200] 2 1 (by decide)).2
    (by decide)
  simpa using h

/-- C7: the latency distribution sorts the recorded durations and
reports, for each percentile p among 99/95/90/75/50/25/10, the element
at 0-indexed position `len * p / 100` of the sorted list (an in-range
position whenever the list is non-empty); for a sorted list of length
10 the 50th percentile is the element at index 5. -/
theorem percentile_index_is_len_mul_p_div_100 :
    (∀ d : List Nat, List.Sorted (· ≤ ·) d → ∀ p ∈ percentileCuts,
       reportedPercentile d p = d.get? (d.length * p / 100) ∧
       (0 < d.length → d.length * p / 100 < d.length)) ∧
    (∀ d : List Nat, List.Sorted (· ≤ ·) d → d.length = 10 →
       reportedPercentile d 50 = d.get? 5) := by
  constructor
  · intro d hd p hp
    have hsort : d.mergeSort (· ≤ ·) = d := List.mergeSort_eq_self hd
    constructor
    · rw [reportedPercentile, hsort]
    · intro hlen
      have hp100 : p < 100 := by
        simp [percentileCuts] at hp
        rcases hp with h | h | h | h | h | h | h <;> omega
      rw [Nat.div_lt_iff_lt_mul (by norm_num)]
      exact mul_lt_mul_of_pos_left hp100 hlen
  · intro d hd h10
    have hsort : d.mergeSort (· ≤ ·) = d := List.mergeSort_eq_self hd
    rw [reportedPercentile, hsort, h10]

/-- Witness for C7 on the sorted length-10 list 0..9: the reported 50th
percentile is element 5. -/
theorem percentile_index_is_len_mul_p_div_100_witness :
    reportedPercentile [0, 1, 2, 3, 4, 5, 6, 7, 8, 9] 50 = some 5 := by
  have h := percentile_index_is_len_mul_p_div_100.2
    [0, 1, 2, 3, 4, 5, 6, 7, 8, 9] (by decide) (by decide)
  simpa using h

theorem count_filter_false {α : Type} [DecidableEq α] (p : α → Bool) (l : List α)
    (a : α) (h : p a = false) : (l.filter p).count a = 0 := by
  apply List.count_eq_zero_of_not_mem
  intro hmem
  rw [List.mem_filter] at hmem
  rw [hmem.2] at h
  cases h

theorem count_range (a : Nat) : ∀ n : Nat,
    (List.range n).count a = if a < n then 1 else 0 := by
  intro n
  induction n with
  | zero => simp
  | succ n ih =>
    rw [List.range_succ, List.count_append, ih]
    have hc : List.count a [n] = if n = a then 1 else 0 := by
      simp [List.count_cons]
    rw [hc]
    split_ifs <;> omega

theorem count_claimedBy {W : Nat} (s : List (Fin W)) (w : Fin W) (i : Nat) :
    (claimedBy s w).count i =
      if i < s.length ∧ s[i]? = some w then 1 else 0 := by
  rw [claimedBy]
  by_cases h : s[i]? = some w
  · rw [List.count_filter (by rw [h]; simp), count_range]
    simp only [h, and_true]
  · rw [count_filter_false _ _ _ (by simp only [decide_eq_false_iff_not]; exact h)]
    rw [if_neg (fun hc => h hc.2)]

theorem count_executedBy {W : Nat} (N : Nat) (s : List (Fin W)) (w : Fin W)
    (i : Nat) :
    (executedBy N s w).count i =
      if i < N ∧ i < s.length ∧ s[i]? = some w then 1 else 0 := by
  rw [executedBy]
  by_cases h : i < N
  · rw [List.count_filter (by simp [h]), count_claimedBy]
    by_cases h2 : i < s.length ∧ s[i]? = some w
    · rw [if_pos h2, if_pos ⟨h, h2.1, h2.2⟩]
    · rw [if_neg h2, if_neg (fun hc => h2 ⟨hc.2.1, hc.2.2⟩)]
  · rw [count_filter_false _ _ _ (by simp [h])]
    rw [if_neg (fun hc => h hc.1)]

/-- C8: over every linearisation (schedule) of a finished benchmark run
with at least one worker, each iteration index below `number` is
executed by exactly one worker exactly once, and no index at or above
`number` is executed by anyone: exactly `number` iterations in total,
no duplicate and no gap, regardless of scheduling order. -/
theorem benchmark_iterations_claimed_exactly_once
    (W number : Nat) (hW : 0 < W) (schedule : List (Fin W))
    (hfin : finishedRun number schedule) (i : Nat) :
    (∑ w : Fin W, (executedBy number schedule w).count i) =
      if i < number then 1 else 0 := by
  by_cases hiN : i < number
  · obtain ⟨v, hv, hvN⟩ := hfin ⟨0, hW⟩
    have hvM : v < schedule.length := by
      rw [claimedBy, List.mem_filter] at hv
      exact List.mem_range.mp hv.1
    have hiM : i < schedule.length := by omega
    have hget : schedule[i]? = some (schedule.get ⟨i, hiM⟩) := by
      rw [List.getElem?_eq_getElem hiM]
      rfl
    have hterm : ∀ w : Fin W, (executedBy number schedule w).count i =
        if schedule.get ⟨i, hiM⟩ = w then 1 else 0 := by
      intro w
      rw [count_executedBy, hget]
      by_cases hw : schedule.get ⟨i, hiM⟩ = w
      · rw [if_pos hw, if_pos ⟨hiN, hiM, by rw [hw]⟩]
      · rw [if_neg hw, if_neg (fun hc => hw (Option.some.inj hc.2.2))]
    rw [if_pos hiN]
    calc (∑ w : Fin W, (executedBy number schedule w).count i)
        = ∑ w : Fin W, if schedule.get ⟨i, hiM⟩ = w then 1 else 0 :=
          Finset.sum_congr rfl (fun w _ => hterm w)
      _ = 1 := by rw [Finset.sum_ite_eq]; simp
  · rw [if_neg hiN]
    apply Finset.sum_eq_zero
    intro w _
    rw [count_executedBy]
    rw [if_neg (fun hc => hiN hc.1)]

/-- Witness for C8: two workers, three iterations, the interleaving
`[w0, w1, w0, w1, w0]`; iteration 2 is executed exactly once. -/
theorem benchmark_iterations_claimed_exactly_once_witness :
    (∑ w : Fin 2,
        (executedBy 3 [(0 : Fin 2), 1, 0, 1, 0] w).count 2) = 1 := by
  have hfin : finishedRun 3 [(0 : Fin 2), 1, 0, 1, 0] := by
    intro w
    fin_cases w
    · exact ⟨4, by decide, by decide⟩
    · exact ⟨3, by decide, by decide⟩
  have h := benchmark_iterations_claimed_exactly_once 2 3 (by decide)
    [(0 : Fin 2), 1, 0, 1, 0] hfin 2
  simpa using h

theorem applyChars_nil (R : List (Str × Response)) (C : List (Str × Str)) :
    applyChars R C [] = [] := by
  rw [applyChars]

theorem applyChars_some {c : Char} {cs name rest : Str}
    (R : List (Str × Response)) (C : List (Str × Str))
    (hm : matchVar (c :: cs) = some (name, rest)) :
    applyChars R C (c :: cs) = resolveName R C name ++ applyChars R C rest := by
  rw [applyChars]
  split
  · rename_i name' rest' heq
    rw [hm] at heq
    cases heq
    rfl
  · rename_i heq
    rw [hm] at heq
    cases heq

theorem applyChars_none {c : Char} {cs : Str}
    (R : List (Str × Response)) (C : List (Str × Str))
    (hm : matchVar (c :: cs) = none) :
    applyChars R C (c :: cs) = c :: applyChars R C cs := by
  rw [applyChars]
  split
  · rename_i name' rest' heq
    rw [hm] at heq
    cases heq
  · rfl

/-- A concrete context, request and configuration exhibiting what
`Request::apply` does to the `description` field. -/
def cxtC2 : List (Str × Str) := [("x".toList, "y".toList)]

def cfgC2 : Config := ⟨[], []⟩

/-- A request whose description is the template `${x}` (built here as an
explicit character list). -/
def reqC2 : Request :=
  ⟨'$' :: '{' :: 'x' :: '}' :: [], [], "u".toList, "GET".toList, [], [], .none⟩

/-- C2, counterexample: the claim says the rendered request's
description equals the Resolver applied to the original description,
but `Request::apply` (src/request.rs:76-113) never touches
`description`: on a description `${x}` with context `x := y` the
rendered description is still `${x}` while the Resolver yields `y`. -/
theorem request_apply_description_not_resolved :
    (Request.applyReq cfgC2 cxtC2 reqC2).description ≠
      cfgC2.apply cxtC2 reqC2.description := by
  intro h
  have h1 : (Request.applyReq cfgC2 cxtC2 reqC2).description =
      '$' :: '{' :: 'x' :: '}' :: [] := rfl
  have hm : matchVar ('$' :: '{' :: 'x' :: '}' :: []) = some ('x' :: [], []) := by
    decide
  have h2 : cfgC2.apply cxtC2 reqC2.description = 'y' :: [] := by
    show applyChars [] cxtC2 ('$' :: '{' :: 'x' :: '}' :: []) = 'y' :: []
    rw [applyChars_some _ _ hm, applyChars_nil]
    decide
  rw [h1, h2] at h
  cases h

/-- C2 as amended: rendering applies the Resolver to the URL, the
method, every header value, every query-parameter value and the active
body variant's templated leaves (form values field-by-field, the raw
file path, the raw inline text, each multipart text field or file
path), while `description` and `tags` pass through unchanged — in
particular the rendered description equals the original description,
not the Resolver applied to it. -/
theorem request_apply_renders_all_but_description
    (cfg : Config) (cxt : List (Str × Str)) (r : Request) :
    (Request.applyReq cfg cxt r).url = cfg.apply cxt r.url ∧
    (Request.applyReq cfg cxt r).method = cfg.apply cxt r.method ∧
    (Request.applyReq cfg cxt r).headers =
      r.headers.map (fun kv => (kv.1, cfg.apply cxt kv.2)) ∧
    (Request.applyReq cfg cxt r).query_parameters =
      r.query_parameters.map (fun kv => (kv.1, cfg.apply cxt kv.2)) ∧
    (∀ data, r.body = Body.form data →
       (Request.applyReq cfg cxt r).body =
         Body.form (data.map (fun kv => (kv.1, cfg.apply cxt kv.2)))) ∧
    (∀ path, r.body = Body.raw (.file path) →
       (Request.applyReq cfg cxt r).body = Body.raw (.file (cfg.apply cxt path))) ∧
    (∀ data, r.body = Body.raw (.text data) →
       (Request.applyReq cfg cxt r).body = Body.raw (.text (cfg.apply cxt data))) ∧
    (∀ data, r.body = Body.multiPart data →
       (Request.applyReq cfg cxt r).body =
         Body.multiPart (data.map (fun kv =>
           (kv.1,
            match kv.2 with
            | .text d => MultiPartField.text (cfg.apply cxt d)
            | .file p => MultiPartField.file (cfg.apply cxt p))))) ∧
    (Request.applyReq cfg cxt r).description = r.description ∧
    (Request.applyReq cfg cxt r).tags = r.tags := by
  refine ⟨rfl, rfl, rfl, rfl, ?_, ?_, ?_, ?_, rfl, rfl⟩
  · intro data hb
    show (r.body.applyBody cfg cxt) = _
    rw [hb]
    rfl
  · intro path hb
    show (r.body.applyBody cfg cxt) = _
    rw [hb]
    rfl
  · intro data hb
    show (r.body.applyBody cfg cxt) = _
    rw [hb]
    rfl
  · intro data hb
    show (r.body.applyBody cfg cxt) = _
    rw [hb]
    rfl

/-- Witness for C2's amended statement at a concrete form-body request:
the header value and form value are resolved, the description is
unchanged. -/
theorem request_apply_renders_all_but_description_witness :
    (Request.applyReq cfgC2 cxtC2
        ⟨"d".toList, [], "u".toList, "GET".toList, [], [],
         Body.form [("k".toList, "v".toList)]⟩).body =
      Body.form [("k".toList, cfgC2.apply cxtC2 "v".toList)] ∧
    (Request.applyReq cfgC2 cxtC2
        ⟨"d".toList, [], "u".toList, "GET".toList, [], [],
         Body.form [("k".toList, "v".toList)]⟩).description = "d".toList := by
  constructor
  · have h := (request_apply_renders_all_but_description cfgC2 cxtC2
      ⟨"d".toList, [], "u".toList, "GET".toList, [], [],
       Body.form [("k".toList, "v".toList)]⟩).2.2.2.2.1
      [("k".toList, "v".toList)] rfl
    simpa using h
  · exact (request_apply_renders_all_but_description cfgC2 cxtC2
      ⟨"d".toList, [], "u".toList, "GET".toList, [], [],
       Body.form [("k".toList, "v".toList)]⟩).2.2.2.2.2.2.2.2.1

/-- The claim's failing scenario: one step `s` with three assertions,
where assertion `a2` fails with reason `boom`. -/
def stepsC1 : List (Str × List (Str × Option Str)) :=
  [("s".toList,
    [("a1".toList, Option.none), ("a2".toList, some "boom".toList),
     ("a3".toList, Option.none)])]

/-- The tree `Test::execute` actually produces on that scenario: the
assertion leaves are correct (`a2` Failed with its reason, `a1`/`a3`
Passed) but the step and the root are both `Passed`. -/
def treeC1 : TestResults :=
  .mk "t".toList .passed
    [.mk "s".toList .passed
      [.mk "a1".toList .passed [],
       .mk "a2".toList (.failed "boom".toList) [],
       .mk "a3".toList .passed []]]

/-- C1, evaluation at the failing input: on a test with one step of
three assertions where assertion 2 fails, `Test::execute`
(src/test.rs:181-224) records the assertion leaves correctly but marks
the step `Passed` unconditionally (src/test.rs:217) and the root
`Passed` unconditionally (src/test.rs:221) — the claim requires both to
be `Failed`.  `TestResults::complete` (src/test.rs:137-148) is never
called by `execute`; even applying it afterwards marks the step
`Failed` but still leaves the root `Passed`, because `complete` reads a
child's state before recursing into that child. -/
theorem test_execute_root_and_step_stay_passed :
    executeTree "t".toList stepsC1 = some treeC1 ∧
    treeC1.state = TestState.passed ∧
    (treeC1.children.map TestResults.state) = [TestState.passed] ∧
    treeC1.complete.state = TestState.passed ∧
    (treeC1.complete.children.map TestResults.state) =
      [TestState.failed "dependent test failed".toList] := by
  refine ⟨?_, rfl, rfl, ?_, ?_⟩
  · simp [executeTree, stepsC1, treeC1, skeletonTree, runStep, List.foldlM,
      TestResults.update, TestResults.updateChild, TestResults.name]
  · simp [treeC1, TestResults.complete, TestResults.completeChildren,
      TestResults.state, TestResults.children]
  · simp [treeC1, TestResults.complete, TestResults.completeChildren,
      TestResults.state, TestResults.children]

theorem resolveName_responseTag (responses : List (Str × Response))
    (ctx : List (Str × Str)) (rname : Str) :
    resolveName responses ctx (responseTag ++ rname) =
      match find_response_data responses rname with
      | some v => v
      | none => [] := by
  unfold resolveName
  rw [if_pos (by rw [List.isPrefixOf_iff_prefix]; exact List.prefix_append _ _)]
  have h9 : responseTag.length = 9 := rfl
  rw [show (responseTag ++ rname).drop 9 = rname from by rw [← h9, List.drop_left]]

theorem frd_found (responses : List (Str × Response)) (rname r0 : Str)
    (rest : List Str) (resp : Response) (v leaf : Json)
    (hsplit : splitDot rname = r0 :: rest) (hrest : rest ≠ [])
    (hlook : lookupA responses r0 = some resp)
    (hparse : parseJson resp.body = some v)
    (hwalk : walkPath v rest = some leaf) :
    find_response_data responses rname = some (stripQuotes (Json.render leaf)) := by
  unfold find_response_data
  rw [hsplit]
  simp only [if_neg hrest, hlook, hparse, hwalk]

theorem frd_absent (responses : List (Str × Response)) (rname r0 : Str)
    (rest : List Str)
    (hsplit : splitDot rname = r0 :: rest) (hrest : rest ≠ [])
    (hlook : lookupA responses r0 = none) :
    find_response_data responses rname = none := by
  unfold find_response_data
  rw [hsplit]
  simp only [if_neg hrest, hlook]

theorem frd_unparseable (responses : List (Str × Response)) (rname r0 : Str)
    (rest : List Str) (resp : Response)
    (hsplit : splitDot rname = r0 :: rest) (hrest : rest ≠ [])
    (hlook : lookupA responses r0 = some resp)
    (hparse : parseJson resp.body = none) :
    find_response_data responses rname = none := by
  unfold find_response_data
  rw [hsplit]
  simp only [if_neg hrest, hlook, hparse]

theorem frd_missing_step (responses : List (Str × Response)) (rname r0 : Str)
    (rest : List Str) (resp : Response) (v : Json)
    (hsplit : splitDot rname = r0 :: rest) (hrest : rest ≠ [])
    (hlook : lookupA responses r0 = some resp)
    (hparse : parseJson resp.body = some v)
    (hwalk : walkPath v rest = none) :
    find_response_data responses rname = none := by
  unfold find_response_data
  rw [hsplit]
  simp only [if_neg hrest, hlook, hparse, hwalk]

theorem frd_no_path (responses : List (Str × Response)) (rname r0 : Str)
    (hsplit : splitDot rname = [r0]) :
    find_response_data responses rname = none := by
  unfold find_response_data
  rw [hsplit]
  rfl

/-- The body `{"a":{"b":"x"}}` of the claim's concrete example, as an
explicit character list. -/
def bodyC4 : Str :=
  '{' :: '"' :: 'a' :: '"' :: ':' :: '{' :: '"' :: 'b' :: '"' :: ':' ::
  '"' :: 'x' :: '"' :: '}' :: '}' :: []

def respC4 : Response := ⟨200, "HTTP/1.1".toList, [], bodyC4⟩

def storeC4 : List (Str × Response) := [("R".toList, respC4)]

/-- The template `${response.R.a.b}`. -/
def tmplAB : Str := '$' :: '{' :: ("response.R.a.b".toList ++ '}' :: [])

/-- The template `${response.R.a.c}`. -/
def tmplAC : Str := '$' :: '{' :: ("response.R.a.c".toList ++ '}' :: [])

/-- The parsed value of `bodyC4`. -/
def vC4 : Json := .obj [("a".toList, .obj [("b".toList, .str ('x' :: []))])]

/-- C4: resolution of a `${response.R.path}` placeholder.  If the
response is present, its body parses as JSON and the dot-separated path
(object fields, numeric tokens indexing arrays) reaches a value, the
placeholder resolves to the rendered value with enclosing quote
characters stripped; if the response is absent, the body is not
parseable JSON, a path step is missing, or no path follows the response
name, it resolves to the empty string.  Concretely,
`${response.R.a.b}` against body `{"a":{"b":"x"}}` yields `x`, and
`${response.R.a.c}` against the same body yields the empty string. -/
theorem response_placeholder_resolution :
    (∀ (responses : List (Str × Response)) (ctx : List (Str × Str))
       (rname r0 : Str) (rest : List Str) (resp : Response) (v leaf : Json),
       splitDot rname = r0 :: rest → rest ≠ [] →
       lookupA responses r0 = some resp →
       parseJson resp.body = some v →
       walkPath v rest = some leaf →
       resolveName responses ctx (responseTag ++ rname) =
         stripQuotes (Json.render leaf)) ∧
    (∀ (responses : List (Str × Response)) (ctx : List (Str × Str))
       (rname r0 : Str) (rest : List Str),
       splitDot rname = r0 :: rest → rest ≠ [] →
       lookupA responses r0 = none →
       resolveName responses ctx (responseTag ++ rname) = []) ∧
    (∀ (responses : List (Str × Response)) (ctx : List (Str × Str))
       (rname r0 : Str) (rest : List Str) (resp : Response),
       splitDot rname = r0 :: rest → rest ≠ [] →
       lookupA responses r0 = some resp →
       parseJson resp.body = none →
       resolveName responses ctx (responseTag ++ rname) = []) ∧
    (∀ (responses : List (Str × Response)) (ctx : List (Str × Str))
       (rname r0 : Str) (rest : List Str) (resp : Response) (v : Json),
       splitDot rname = r0 :: rest → rest ≠ [] →
       lookupA responses r0 = some resp →
       parseJson resp.body = some v →
       walkPath v rest = none →
       resolveName responses ctx (responseTag ++ rname) = []) ∧
    (∀ (responses : List (Str × Response)) (ctx : List (Str × Str))
       (rname r0 : Str),
       splitDot rname = [r0] →
       resolveName responses ctx (responseTag ++ rname) = []) ∧
    applyChars storeC4 [] tmplAB = 'x' :: [] ∧
    applyChars storeC4 [] tmplAC = [] := by
  have hab : find_response_data storeC4 "R.a.b".toList = some ('x' :: []) := by
    have h := frd_found storeC4 "R.a.b".toList "R".toList
      ["a".toList, "b".toList] respC4 vC4 (Json.str ('x' :: []))
      rfl (by simp) rfl rfl rfl
    rw [h]
    simp [Json.render, escapeJson, stripQuotes]
  have hac : find_response_data storeC4 "R.a.c".toList = none :=
    frd_missing_step storeC4 "R.a.c".toList "R".toList
      ["a".toList, "c".toList] respC4 vC4 rfl (by simp) rfl rfl rfl
  refine ⟨?_, ?_, ?_, ?_, ?_, ?_, ?_⟩
  · intro responses ctx rname r0 rest resp v leaf hs hr hl hp hw
    rw [resolveName_responseTag, frd_found responses rname r0 rest resp v leaf hs hr hl hp hw]
  · intro responses ctx rname r0 rest hs hr hl
    rw [resolveName_responseTag, frd_absent responses rname r0 rest hs hr hl]
  · intro responses ctx rname r0 rest resp hs hr hl hp
    rw [resolveName_responseTag, frd_unparseable responses rname r0 rest resp hs hr hl hp]
  · intro responses ctx rname r0 rest resp v hs hr hl hp hw
    rw [resolveName_responseTag, frd_missing_step responses rname r0 rest resp v hs hr hl hp hw]
  · intro responses ctx rname r0 hs
    rw [resolveName_responseTag, frd_no_path responses rname r0 hs]
  · have hm : matchVar ('$' :: '{' :: ("response.R.a.b".toList ++ '}' :: [])) =
        some ("response.R.a.b".toList, []) := by decide
    show applyChars storeC4 [] ('$' :: '{' :: ("response.R.a.b".toList ++ '}' :: [])) =
      'x' :: []
    rw [applyChars_some _ _ hm, applyChars_nil,
      show "response.R.a.b".toList = responseTag ++ "R.a.b".toList from rfl,
      resolveName_responseTag, hab]
    rfl
  · have hm : matchVar ('$' :: '{' :: ("response.R.a.c".toList ++ '}' :: [])) =
        some ("response.R.a.c".toList, []) := by decide
    show applyChars storeC4 [] ('$' :: '{' :: ("response.R.a.c".toList ++ '}' :: [])) = []
    rw [applyChars_some _ _ hm, applyChars_nil,
      show "response.R.a.c".toList = responseTag ++ "R.a.c".toList from rfl,
      resolveName_responseTag, hac]
    rfl

/-- Witness for C4: the positive case instantiated at the concrete
store `R := {"a":{"b":"x"}}` and path `R.a.b`. -/
theorem response_placeholder_resolution_witness :
    resolveName storeC4 [] (responseTag ++ "R.a.b".toList) =
      stripQuotes (Json.render (Json.str ('x' :: []))) := by
  exact response_placeholder_resolution.1 storeC4 [] "R.a.b".toList "R".toList
    ["a".toList, "b".toList] respC4 vC4 (Json.str ('x' :: []))
    rfl (by simp) rfl rfl rfl

/-! ## The resolver's placeholder grammar: C5 and C6 -/

theorem spaceChar_not_name {c : Char} (h : isSpaceChar c = true) :
    isNameChar c = false := by
  simp only [isSpaceChar, Bool.or_eq_true, decide_eq_true_eq] at h
  rcases h with (((((h1 | h1) | h1) | h1) | h1) | h1) <;> subst h1 <;> decide

theorem nameChar_not_space {c : Char} (h : isNameChar c = true) :
    isSpaceChar c = false := by
  cases hs : isSpaceChar c with
  | false => rfl
  | true => rw [spaceChar_not_name hs] at h; cases h

theorem takeWhile_append_neg {p : Char → Bool} {c : Char} (u t : Str)
    (hc : p c = false) : List.takeWhile p (u ++ c :: t) = u.takeWhile p := by
  induction u with
  | nil => simp [List.takeWhile_cons, hc]
  | cons a u ih =>
    rw [List.cons_append, List.takeWhile_cons, List.takeWhile_cons]
    cases ha : p a
    · simp
    · simp [ih]

theorem dropWhile_append_neg {p : Char → Bool} {c : Char} (u t : Str)
    (hc : p c = false) : List.dropWhile p (u ++ c :: t) = u.dropWhile p ++ c :: t := by
  induction u with
  | nil => simp [List.dropWhile_cons, hc]
  | cons a u ih =>
    rw [List.cons_append, List.dropWhile_cons, List.dropWhile_cons]
    cases ha : p a
    · simp
    · simp [ih]

theorem takeWhile_append_all {p : Char → Bool} (u v : Str)
    (hu : ∀ x ∈ u, p x = true) :
    List.takeWhile p (u ++ v) = u ++ v.takeWhile p := by
  induction u with
  | nil => simp
  | cons a u ih =>
    rw [List.cons_append, List.takeWhile_cons, if_pos (hu a (by simp))]
    rw [ih (fun x hx => hu x (by simp [hx]))]
    rfl

theorem dropWhile_append_all {p : Char → Bool} (u v : Str)
    (hu : ∀ x ∈ u, p x = true) :
    List.dropWhile p (u ++ v) = v.dropWhile p := by
  induction u with
  | nil => simp
  | cons a u ih =>
    rw [List.cons_append, List.dropWhile_cons, if_pos (hu a (by simp))]
    exact ih (fun x hx => hu x (by simp [hx]))

theorem dropWhile_not_head {p : Char → Bool} {c : Char} (t : Str)
    (hc : p c = false) : List.dropWhile p (c :: t) = c :: t := by
  rw [List.dropWhile_cons, if_neg (by rw [hc]; simp)]

/-- The `VARIABLE` regex matches a well-formed placeholder at the head
of the input: `${`, whitespace, a non-empty identifier, whitespace, `}`;
the capture is the identifier, the remainder is everything after the
closing brace. -/
theorem matchVar_placeholder (ws1 name ws2 post : Str)
    (h1 : ∀ c ∈ ws1, isSpaceChar c = true)
    (hn : name ≠ []) (hn2 : ∀ c ∈ name, isNameChar c = true)
    (h2 : ∀ c ∈ ws2, isSpaceChar c = true) :
    matchVar ('$' :: '{' :: (ws1 ++ (name ++ (ws2 ++ '}' :: post)))) =
      some (name, post) := by
  obtain ⟨n0, name', hname⟩ : ∃ n0 name', name = n0 :: name' := by
    cases name with
    | nil => exact absurd rfl hn
    | cons a l => exact ⟨a, l, rfl⟩
  have hn0 : isNameChar n0 = true := hn2 n0 (by rw [hname]; simp)
  have etake : List.takeWhile isNameChar (ws2 ++ '}' :: post) = [] := by
    cases ws2 with
    | nil => rw [List.nil_append, List.takeWhile_cons, if_neg (by decide)]
    | cons w ws =>
      rw [List.cons_append, List.takeWhile_cons,
        if_neg (by rw [spaceChar_not_name (h2 w (by simp))]; simp)]
  have e4 : List.dropWhile isSpaceChar (ws2 ++ '}' :: post) = '}' :: post := by
    rw [dropWhile_append_all ws2 _ h2, dropWhile_not_head _ (by decide)]
  have e1 : List.dropWhile isSpaceChar (ws1 ++ (name ++ (ws2 ++ '}' :: post))) =
      name ++ (ws2 ++ '}' :: post) := by
    rw [dropWhile_append_all ws1 _ h1, hname, List.cons_append,
      dropWhile_not_head _ (nameChar_not_space hn0)]
  have e2 : List.takeWhile isNameChar (name ++ (ws2 ++ '}' :: post)) = name := by
    rw [takeWhile_append_all name _ hn2, etake, List.append_nil]
  have e3 : List.dropWhile isNameChar (name ++ (ws2 ++ '}' :: post)) =
      ws2 ++ '}' :: post := by
    rw [dropWhile_append_all name _ hn2]
    cases ws2 with
    | nil => rw [List.nil_append]; exact dropWhile_not_head _ (by decide)
    | cons w ws =>
      rw [List.cons_append,
        dropWhile_not_head _ (spaceChar_not_name (h2 w (by simp)))]
  simp only [matchVar]
  rw [e1, e2, e3, e4, if_pos (by trivial), if_neg hn]
  simp

/-- The regex cannot match at a position whose character is not `$`. -/
theorem matchVar_ne_dollar {c : Char} (t : Str) (hc : c ≠ '$') :
    matchVar (c :: t) = none := by
  cases t with
  | nil => rfl
  | cons c2 t' =>
    simp only [matchVar]
    rw [if_neg (fun h => hc h.1)]

/-- `split('.')` always yields at least one token. -/
theorem splitDot_cons (s : Str) : ∃ r0 others, splitDot s = r0 :: others := by
  induction s with
  | nil => exact ⟨[], [], rfl⟩
  | cons c rest ih =>
    obtain ⟨r0, others, h⟩ := ih
    by_cases hc : c = '.'
    · refine ⟨[], splitDot rest, ?_⟩
      rw [splitDot, if_pos hc]
    · refine ⟨c :: r0, others, ?_⟩
      rw [splitDot, if_neg hc, h]

/-- An identifier absent from the context and (for `response.`-prefixed
identifiers) naming no stored response resolves to the empty string. -/
theorem resolveName_absent (R : List (Str × Response)) (C : List (Str × Str))
    (name : Str) (hctx : lookupA C name = none)
    (hresp : ∀ rest r0 others, name = responseTag ++ rest →
       splitDot rest = r0 :: others → lookupA R r0 = none) :
    resolveName R C name = [] := by
  unfold resolveName
  by_cases hp : responseTag.isPrefixOf name
  · rw [if_pos hp]
    rw [List.isPrefixOf_iff_prefix] at hp
    obtain ⟨rest, hrest⟩ := hp
    rw [← hrest]
    have hdrop : (responseTag ++ rest).drop 9 = rest := by
      rw [show (9 : Nat) = responseTag.length from rfl, List.drop_left]
    rw [hdrop]
    obtain ⟨r0, others, hsplit⟩ := splitDot_cons rest
    cases others with
    | nil => rw [frd_no_path R rest r0 hsplit]
    | cons o os =>
      rw [frd_absent R rest r0 (o :: os) hsplit (by simp)
        (hresp rest r0 (o :: os) hrest.symm hsplit)]
  · rw [if_neg hp, hctx]

/-- C5: a placeholder whose identifier is absent from both the context
and the response store is replaced by the empty string — `apply` is
total, it never raises an error — and text in which the pattern matches
nowhere passes through unchanged. -/
theorem unresolved_placeholder_is_empty :
    (∀ (R : List (Str × Response)) (C : List (Str × Str))
       (pre name post : Str),
       (∀ c ∈ pre, c ≠ '$') →
       name ≠ [] → (∀ c ∈ name, isNameChar c = true) →
       lookupA C name = none →
       (∀ rest r0 others, name = responseTag ++ rest →
          splitDot rest = r0 :: others → lookupA R r0 = none) →
       applyChars R C (pre ++ ('$' :: '{' :: (name ++ '}' :: post))) =
         pre ++ applyChars R C post) ∧
    (∀ (R : List (Str × Response)) (C : List (Str × Str)) (s : Str),
       (∀ i, matchVar (s.drop i) = none) → applyChars R C s = s) := by
  constructor
  · intro R C pre name post hpre hn hn2 hctx hresp
    induction pre with
    | nil =>
      have hm : matchVar ('$' :: '{' :: (name ++ '}' :: post)) =
          some (name, post) := by
        have h := matchVar_placeholder [] name [] post (by simp) hn hn2 (by simp)
        simpa using h
      rw [List.nil_append, applyChars_some _ _ hm,
        resolveName_absent R C name hctx hresp]
    | cons c pre' ih =>
      have hm : matchVar (c :: (pre' ++ ('$' :: '{' :: (name ++ '}' :: post)))) =
          none := matchVar_ne_dollar _ (hpre c (by simp))
      rw [List.cons_append, applyChars_none _ _ hm,
        ih (fun x hx => hpre x (by simp [hx]))]
      rfl
  · intro R C s hs
    induction s with
    | nil => exact applyChars_nil R C
    | cons c s' ih =>
      have h0 : matchVar (c :: s') = none := by
        have := hs 0
        simpa using this
      rw [applyChars_none _ _ h0]
      rw [ih (fun i => by have := hs (i + 1); simpa [List.drop_succ_cons] using this)]

/-- Witness for C5 with empty context and store, template `ab${x}cd`. -/
theorem unresolved_placeholder_is_empty_witness :
    applyChars [] [] ("ab".toList ++ ('$' :: '{' :: ("x".toList ++ '}' :: "cd".toList))) =
      "ab".toList ++ applyChars [] [] "cd".toList :=
  unresolved_placeholder_is_empty.1 [] [] "ab".toList "x".toList "cd".toList
    (by decide) (by decide) (by decide) rfl
    (by
      intro rest r0 others heq _
      have hlen := congrArg List.length heq
      simp [responseTag] at hlen)

/-- Stability of a match attempt whose start lies strictly before a `$`:
either the attempt fails whatever follows the `$`, or it succeeds
consuming only characters before the `$`, with capture and consumed
length independent of what follows. -/
theorem matchVar_dollar_suffix (x : Str) (hx : x ≠ []) :
    (∀ t : Str, matchVar (x ++ '$' :: t) = none) ∨
    (∃ n y, y.length < x.length ∧
      ∀ t : Str, matchVar (x ++ '$' :: t) = some (n, y ++ '$' :: t)) := by
  match x with
  | [] => exact absurd rfl hx
  | [c1] =>
    left
    intro t
    simp only [List.cons_append, List.nil_append]
    simp only [matchVar]
    rw [if_neg (fun h => absurd h.2 (by decide))]
  | c1 :: c2 :: x2 =>
    by_cases hd : c1 = '$' ∧ c2 = '{'
    · obtain ⟨hd1, hd2⟩ := hd
      subst hd1
      subst hd2
      have ea : ∀ t : Str, List.dropWhile isSpaceChar (x2 ++ '$' :: t) =
          List.dropWhile isSpaceChar x2 ++ '$' :: t :=
        fun t => dropWhile_append_neg x2 t (by decide)
      have en : ∀ t : Str,
          List.takeWhile isNameChar (List.dropWhile isSpaceChar x2 ++ '$' :: t) =
            List.takeWhile isNameChar (List.dropWhile isSpaceChar x2) :=
        fun t => takeWhile_append_neg _ t (by decide)
      have ed1 : ∀ t : Str,
          List.dropWhile isNameChar (List.dropWhile isSpaceChar x2 ++ '$' :: t) =
            List.dropWhile isNameChar (List.dropWhile isSpaceChar x2) ++ '$' :: t :=
        fun t => dropWhile_append_neg _ t (by decide)
      have ed2 : ∀ t : Str,
          List.dropWhile isSpaceChar
              (List.dropWhile isNameChar (List.dropWhile isSpaceChar x2) ++ '$' :: t) =
            List.dropWhile isSpaceChar
              (List.dropWhile isNameChar (List.dropWhile isSpaceChar x2)) ++ '$' :: t :=
        fun t => dropWhile_append_neg _ t (by decide)
      by_cases hne : List.takeWhile isNameChar (List.dropWhile isSpaceChar x2) = []
      · left
        intro t
        simp only [List.cons_append]
        simp only [matchVar]
        rw [ea, en, if_pos (by trivial), if_pos hne]
      · cases hd2c : List.dropWhile isSpaceChar
            (List.dropWhile isNameChar (List.dropWhile isSpaceChar x2)) with
        | nil =>
          left
          intro t
          simp only [List.cons_append]
          simp only [matchVar]
          rw [ea, en, ed1, ed2, hd2c, if_pos (by trivial), if_neg hne]
          simp
        | cons c3 d3 =>
          by_cases hc3 : c3 = '}'
          · right
            refine ⟨List.takeWhile isNameChar (List.dropWhile isSpaceChar x2), d3, ?_, ?_⟩
            · have l1 : (List.dropWhile isSpaceChar x2).length ≤ x2.length :=
                lengthDropWhileLe _ _
              have l2 : (List.dropWhile isNameChar
                  (List.dropWhile isSpaceChar x2)).length ≤
                  (List.dropWhile isSpaceChar x2).length := lengthDropWhileLe _ _
              have l3 : (List.dropWhile isSpaceChar
                  (List.dropWhile isNameChar (List.dropWhile isSpaceChar x2))).length ≤
                  (List.dropWhile isNameChar (List.dropWhile isSpaceChar x2)).length :=
                lengthDropWhileLe _ _
              rw [hd2c] at l3
              simp only [List.length_cons] at l3 ⊢
              omega
            · intro t
              subst hc3
              simp only [List.cons_append]
              simp only [matchVar]
              rw [ea, en, ed1, ed2, hd2c, if_pos (by trivial), if_neg hne]
              simp
          · left
            intro t
            simp only [List.cons_append]
            simp only [matchVar]
            rw [ea, en, ed1, ed2, hd2c, if_pos (by trivial), if_neg hne]
            simp [hc3]
    · left
      intro t
      simp only [List.cons_append]
      simp only [matchVar]
      rw [if_neg hd]

theorem ws_irrelevant_aux (R : List (Str × Response)) (C : List (Str × Str))
    (name ws1 ws2 : Str)
    (hn : name ≠ []) (hn2 : ∀ c ∈ name, isNameChar c = true)
    (h1 : ∀ c ∈ ws1, isSpaceChar c = true) (h2 : ∀ c ∈ ws2, isSpaceChar c = true) :
    ∀ (k : Nat) (pre post : Str), pre.length ≤ k →
      applyChars R C (pre ++ ('$' :: '{' :: (ws1 ++ (name ++ (ws2 ++ '}' :: post))))) =
        applyChars R C (pre ++ ('$' :: '{' :: (name ++ '}' :: post))) := by
  have base : ∀ post : Str,
      applyChars R C ('$' :: '{' :: (ws1 ++ (name ++ (ws2 ++ '}' :: post)))) =
        applyChars R C ('$' :: '{' :: (name ++ '}' :: post)) := by
    intro post
    have hmA := matchVar_placeholder ws1 name ws2 post h1 hn hn2 h2
    have hmB : matchVar ('$' :: '{' :: (name ++ '}' :: post)) = some (name, post) := by
      have h := matchVar_placeholder [] name [] post (by simp) hn hn2 (by simp)
      simpa using h
    rw [applyChars_some _ _ hmA, applyChars_some _ _ hmB]
  intro k
  induction k with
  | zero =>
    intro pre post hlen
    have : pre = [] := List.eq_nil_of_length_eq_zero (Nat.le_zero.mp hlen)
    subst this
    simpa using base post
  | succ k ih =>
    intro pre post hlen
    cases pre with
    | nil => simpa using base post
    | cons c pre' =>
      rcases matchVar_dollar_suffix (c :: pre') (by simp) with hnone | ⟨n, y, hy, hsome⟩
      · have hA := hnone ('{' :: (ws1 ++ (name ++ (ws2 ++ '}' :: post))))
        have hB := hnone ('{' :: (name ++ '}' :: post))
        rw [List.cons_append] at hA hB
        rw [List.cons_append, List.cons_append, applyChars_none _ _ hA,
          applyChars_none _ _ hB]
        have hlen' : pre'.length ≤ k := by
          simp only [List.length_cons] at hlen
          omega
        rw [ih pre' post hlen']
      · have hA := hsome ('{' :: (ws1 ++ (name ++ (ws2 ++ '}' :: post))))
        have hB := hsome ('{' :: (name ++ '}' :: post))
        rw [List.cons_append] at hA hB
        rw [List.cons_append, List.cons_append, applyChars_some _ _ hA,
          applyChars_some _ _ hB]
        have hlen' : y.length ≤ k := by
          simp only [List.length_cons] at hy hlen
          omega
        rw [ih y post hlen']

/-- C6: a placeholder written with arbitrary interior whitespace,
`${ name }`, resolves a template to exactly the same output as the same
template with the placeholder written `${name}`, for every context and
response store and whatever text surrounds the placeholder. -/
theorem placeholder_whitespace_irrelevant
    (R : List (Str × Response)) (C : List (Str × Str)) (name ws1 ws2 : Str)
    (hn : name ≠ []) (hn2 : ∀ c ∈ name, isNameChar c = true)
    (h1 : ∀ c ∈ ws1, isSpaceChar c = true) (h2 : ∀ c ∈ ws2, isSpaceChar c = true)
    (pre post : Str) :
    applyChars R C (pre ++ ('$' :: '{' :: (ws1 ++ (name ++ (ws2 ++ '}' :: post))))) =
      applyChars R C (pre ++ ('$' :: '{' :: (name ++ '}' :: post))) :=
  ws_irrelevant_aux R C name ws1 ws2 hn hn2 h1 h2 pre.length pre post (Nat.le_refl _)

/-- Witness for C6: `a${ n  }b` resolves exactly as `a${n}b` with the
context `n := v`. -/
theorem placeholder_whitespace_irrelevant_witness :
    applyChars [] [("n".toList, "v".toList)]
        ("a".toList ++ ('$' :: '{' :: (' ' :: [] ++
          ("n".toList ++ ((' ' :: ' ' :: []) ++ '}' :: "b".toList))))) =
      applyChars [] [("n".toList, "v".toList)]
        ("a".toList ++ ('$' :: '{' :: ("n".toList ++ '}' :: "b".toList))) :=
  placeholder_whitespace_irrelevant [] [("n".toList, "v".toList)]
    "n".toList (' ' :: []) (' ' :: ' ' :: [])
    (by decide) (by decide) (by decide) (by decide) "a".toList "b".toList
